import Mathlib

/-!
Shallow embedding of the low-latency order-matching simulator (`src/main.cpp`).

The matching engine is single-threaded (the consumer thread owns the only
`OrderBook`), so the book logic is embedded as pure functions:

* `std::map<Price, Quantity>` (for one side of the book) becomes an
  association list `Book` sorted by strictly increasing price, mirroring the
  map's ascending key order.
* `OrderBook::match_buy` iterates `asks` from `begin()` (lowest price);
  `matchBuyScan` is that loop, returning the remaining order quantity and
  the surviving ask levels.
* `OrderBook::match_sell` iterates `bids` from `rbegin()` (highest price,
  via reverse iterators); `matchSellScan` is that loop over the reversed
  (descending) bid list.
* `OrderBook::add_to_book` does `map[price] += quantity` (value-initialised
  to 0 when absent); `addLevel` is the sorted-insert-or-aggregate on the
  association list.
* `print_latency_stats` sorts the samples, computes count / mean / min /
  max and nearest-rank percentiles; `latency_stats` models the integer
  outputs, and `mean_ns` the mean (exactly, as a rational).

`Price` and `Quantity` are C++ `int`; they are embedded as unbounded `Int`
(no claim depends on 32-bit overflow).  Order ids and timestamps are latency
plumbing never read by the book logic, so `Order` keeps only the fields the
matching engine reads: side, price, quantity.
-/

inductive Side : Type
  | BUY : Side
  | SELL : Side
deriving DecidableEq, Repr

structure Order : Type where
  side : Side
  price : Int
  quantity : Int
deriving DecidableEq, Repr

/-- One side of the book: `std::map<Price, Quantity>` as an association list
with strictly increasing keys (the map's ascending iteration order). -/
abbrev Book : Type := List (Int × Int)

/-- Keys are strictly increasing, as in `std::map`. -/
def SortedKeys (l : Book) : Prop :=
  List.Pairwise (fun x y : Int × Int => x.1 < y.1) l

/-- Keys are strictly decreasing (a bid list seen through reverse
iterators, highest price first). -/
def SortedKeysDesc (l : Book) : Prop :=
  List.Pairwise (fun x y : Int × Int => y.1 < x.1) l

/-- The body of `add_to_book`: `map[price] += quantity` on one side.
`operator[]` value-initialises an absent entry to `0` before `+=`, so an
absent price creates a level holding exactly `quantity`. -/
def addLevel (price : Int) (quantity : Int) : Book → Book
  | [] => [(price, quantity)]
  | (p, q) :: rest =>
    if price < p then (price, quantity) :: (p, q) :: rest
    else if price = p then (p, q + quantity) :: rest
    else (p, q) :: addLevel price quantity rest

/-- Quantity resting at `price` (`0` when the level is absent). -/
def findQty (price : Int) : Book → Int
  | [] => 0
  | (p, q) :: rest => if price = p then q else findQty price rest

/-- The `for` loop of `OrderBook::match_buy` (src/main.cpp:82-99): walk the
ask levels from lowest price while quantity remains; stop when the buy price
is below the current ask price; otherwise match `min` of the two quantities,
erasing the level exactly when its quantity reaches `0`.  Returns the
remaining buy quantity and the surviving ask levels. -/
def matchBuyScan (price : Int) : Int → Book → Int × Book
  | qty, [] => (qty, [])
  | qty, (ap, aq) :: rest =>
    if qty ≤ 0 then (qty, (ap, aq) :: rest)
    else if price < ap then (qty, (ap, aq) :: rest)
    else
      let matched := min qty aq
      if aq - matched = 0 then matchBuyScan price (qty - matched) rest
      else
        let r := matchBuyScan price (qty - matched) rest
        (r.1, (ap, aq - matched) :: r.2)

/-- The `for` loop of `OrderBook::match_sell` (src/main.cpp:108-124): walk
the bid levels from highest price downward (the C++ uses reverse iterators,
so this scan receives the bid list already reversed, i.e. descending); stop
when the sell price is above the current bid price; otherwise match `min`,
erasing a zeroed level. -/
def matchSellScan (price : Int) : Int → Book → Int × Book
  | qty, [] => (qty, [])
  | qty, (bp, bq) :: rest =>
    if qty ≤ 0 then (qty, (bp, bq) :: rest)
    else if price > bp then (qty, (bp, bq) :: rest)
    else
      let matched := min qty bq
      if bq - matched = 0 then matchSellScan price (qty - matched) rest
      else
        let r := matchSellScan price (qty - matched) rest
        (r.1, (bp, bq - matched) :: r.2)

/-- The two sides of `class OrderBook`. -/
structure OrderBook : Type where
  bids : Book
  asks : Book
deriving DecidableEq, Repr

/-- `OrderBook::add_to_book` (src/main.cpp:73-79). -/
def OrderBook.add_to_book (b : OrderBook) (price : Int) (quantity : Int)
    (side : Side) : OrderBook :=
  match side with
  | Side.BUY => { b with bids := addLevel price quantity b.bids }
  | Side.SELL => { b with asks := addLevel price quantity b.asks }

/-- `OrderBook::match_buy` (src/main.cpp:81-104): run the ask scan, then rest
any remaining quantity on the bid side at the order's price. -/
def OrderBook.match_buy (b : OrderBook) (o : Order) : OrderBook :=
  let r := matchBuyScan o.price o.quantity b.asks
  if r.1 > 0 then
    (OrderBook.mk b.bids r.2).add_to_book o.price r.1 Side.BUY
  else
    { b with asks := r.2 }

/-- `OrderBook::match_sell` (src/main.cpp:106-129): run the bid scan over the
bids in descending order (reverse iteration), then rest any remaining
quantity on the ask side at the order's price. -/
def OrderBook.match_sell (b : OrderBook) (o : Order) : OrderBook :=
  let r := matchSellScan o.price o.quantity b.bids.reverse
  if r.1 > 0 then
    (OrderBook.mk r.2.reverse b.asks).add_to_book o.price r.1 Side.SELL
  else
    { b with bids := r.2.reverse }

/-- `OrderBook::process_order` (src/main.cpp:45-51). -/
def OrderBook.process_order (b : OrderBook) (o : Order) : OrderBook :=
  match o.side with
  | Side.BUY => b.match_buy o
  | Side.SELL => b.match_sell o

/-- The book the consumer thread starts from: both maps empty. -/
def emptyBook : OrderBook := OrderBook.mk [] []

/-- Book state after the matching thread has processed the orders `os`, in
order, starting from the empty book (the only book states the program ever
has). -/
def runBook (os : List Order) : OrderBook :=
  os.foldl OrderBook.process_order emptyBook

/-- Best (highest) bid price: `bids.rbegin()->first` (src/main.cpp:58). -/
def bestBidPrice (b : OrderBook) : Option Int :=
  (b.bids.map Prod.fst).getLast?

/-- Best (lowest) ask price: `asks.begin()->first` (src/main.cpp:63). -/
def bestAskPrice (b : OrderBook) : Option Int :=
  (b.asks.map Prod.fst).head?

/-- Total resting quantity on one side. -/
def sumQty (l : Book) : Int := (l.map Prod.snd).sum

/-- Total quantity a `process_order` call subtracts from the opposing side's
levels (matched quantity). -/
def matchedQty (b : OrderBook) (o : Order) : Int :=
  match o.side with
  | Side.BUY => sumQty b.asks - sumQty (b.process_order o).asks
  | Side.SELL => sumQty b.bids - sumQty (b.process_order o).bids

/-- Total quantity a `process_order` call adds to the order's own side
(the rested remainder). -/
def restedQty (b : OrderBook) (o : Order) : Int :=
  match o.side with
  | Side.BUY => sumQty (b.process_order o).bids - sumQty b.bids
  | Side.SELL => sumQty (b.process_order o).asks - sumQty b.asks

/-- The side's level map that `add_to_book` writes to. -/
def sideLevels (b : OrderBook) (side : Side) : Book :=
  match side with
  | Side.BUY => b.bids
  | Side.SELL => b.asks

/-- Every level's quantity is strictly positive. -/
def PosLevels (l : Book) : Prop := ∀ x ∈ l, 0 < x.2

/-- Every bid price is strictly below every ask price (for sorted sides this
is exactly "best bid < best ask"). -/
def Uncrossed (b : OrderBook) : Prop :=
  ∀ x ∈ b.bids, ∀ y ∈ b.asks, x.1 < y.1

/-- Well-formedness of a book state: both sides sorted as `std::map` keeps
them, no non-positive level, and the book is not crossed. -/
def BookWF (b : OrderBook) : Prop :=
  SortedKeys b.bids ∧ SortedKeys b.asks ∧ PosLevels b.bids ∧ PosLevels b.asks ∧
    Uncrossed b

/-- Spec-side transcription of the `match_buy` scan, following §4.1 of the
spec word for word: "While remaining `order.quantity > 0` and the current
level price ≤ `order.price`: matched = min(remaining order quantity, level
quantity); subtract matched from both; if level quantity reaches 0, remove
the level; else advance."  Used only to compare with `matchBuyScan`. -/
def specBuyScan (orderPrice : Int) : Int → Book → Int × Book
  | remaining, [] => (remaining, [])
  | remaining, (levelPrice, levelQty) :: rest =>
    if 0 < remaining ∧ levelPrice ≤ orderPrice then
      let matched := min remaining levelQty
      if levelQty - matched = 0 then
        specBuyScan orderPrice (remaining - matched) rest
      else
        let r := specBuyScan orderPrice (remaining - matched) rest
        (r.1, (levelPrice, levelQty - matched) :: r.2)
    else (remaining, (levelPrice, levelQty) :: rest)

/-- Spec-side `match_buy` (§4.1): run the scan, then "any quantity remaining
after the scan is added to the bid side at `order.price`". -/
def specMatchBuy (b : OrderBook) (o : Order) : OrderBook :=
  let r := specBuyScan o.price o.quantity b.asks
  if 0 < r.1 then OrderBook.mk (addLevel o.price r.1 b.bids) r.2
  else OrderBook.mk b.bids r.2

/-- Spec-side transcription of the `match_sell` scan (§4.1): "symmetric,
scanning bid levels from highest price downward, stopping when bid price is
below `order.price`".  Receives the bids highest-first. -/
def specSellScan (orderPrice : Int) : Int → Book → Int × Book
  | remaining, [] => (remaining, [])
  | remaining, (levelPrice, levelQty) :: rest =>
    if 0 < remaining ∧ orderPrice ≤ levelPrice then
      let matched := min remaining levelQty
      if levelQty - matched = 0 then
        specSellScan orderPrice (remaining - matched) rest
      else
        let r := specSellScan orderPrice (remaining - matched) rest
        (r.1, (levelPrice, levelQty - matched) :: r.2)
    else (remaining, (levelPrice, levelQty) :: rest)

/-- Spec-side `match_sell` (§4.1): remainder added to the ask side. -/
def specMatchSell (b : OrderBook) (o : Order) : OrderBook :=
  let r := specSellScan o.price o.quantity b.bids.reverse
  if 0 < r.1 then OrderBook.mk r.2.reverse (addLevel o.price r.1 b.asks)
  else OrderBook.mk r.2.reverse b.asks

/-- Nearest-rank percentile index of `print_latency_stats`
(src/main.cpp:192-194): `total_count * p` truncated toward zero, with the
percentile `p` written as the fraction `num / den`. -/
def pctIdx (count num den : Nat) : Nat := count * num / den

/-- The integer outputs of `print_latency_stats` (src/main.cpp:186-194):
count, min (front of the sorted samples), max (back), and the 50/90/99
nearest-rank percentiles of the ascending-sorted samples. -/
structure LatencyStats : Type where
  count : Nat
  minNs : Int
  maxNs : Int
  p50 : Int
  p90 : Int
  p99 : Int
deriving DecidableEq, Repr

/-- `print_latency_stats` (src/main.cpp:181-194): `none` when no latencies
were recorded (the function prints "No latencies recorded." and returns
before computing anything), otherwise the sorted-sample statistics. -/
def latency_stats (samples : List Int) : Option LatencyStats :=
  if samples.isEmpty then none
  else
    let sorted := List.insertionSort (fun a b : Int => a ≤ b) samples
    let n := sorted.length
    some
      { count := n
        minNs := sorted.headD 0
        maxNs := sorted.getLastD 0
        p50 := sorted.getD (pctIdx n 50 100) 0
        p90 := sorted.getD (pctIdx n 90 100) 0
        p99 := sorted.getD (pctIdx n 99 100) 0 }

/-- The mean of `print_latency_stats` (src/main.cpp:188-189), `sum / count`,
modelled exactly as a rational. -/
def mean_ns (samples : List Int) : ℚ :=
  (samples.sum : ℚ) / samples.length

/-! ### Lemmas about the ask scan of `match_buy` -/

theorem matchBuyScan_nonpos (price : Int) (qty : Int) (asks : Book)
    (h : qty ≤ 0) : matchBuyScan price qty asks = (qty, asks) := by
  cases asks with
  | nil => rfl
  | cons hd tl =>
    obtain ⟨ap, aq⟩ := hd
    simp [matchBuyScan, h]

theorem matchBuyScan_keys_sublist (price : Int) (qty : Int) (asks : Book) :
    ((matchBuyScan price qty asks).2.map Prod.fst).Sublist (asks.map Prod.fst) := by
  induction asks generalizing qty with
  | nil => simp [matchBuyScan]
  | cons hd tl ih =>
    obtain ⟨ap, aq⟩ := hd
    simp only [matchBuyScan]
    split
    · exact List.Sublist.refl _
    · split
      · exact List.Sublist.refl _
      · split
        · exact List.Sublist.cons ap (ih _)
        · exact List.Sublist.cons₂ ap (ih _)

theorem matchBuyScan_fst_nonneg (price : Int) (qty : Int) (asks : Book)
    (h : 0 ≤ qty) : 0 ≤ (matchBuyScan price qty asks).1 := by
  induction asks generalizing qty with
  | nil => simpa [matchBuyScan] using h
  | cons hd tl ih =>
    obtain ⟨ap, aq⟩ := hd
    have hm1 := min_le_left qty aq
    have hm2 := min_le_right qty aq
    simp only [matchBuyScan]
    split_ifs with h1 h2 h3
    · exact h
    · exact h
    · exact ih _ (by omega)
    · exact ih _ (by omega)

theorem matchBuyScan_pos_gt (price : Int) (qty : Int) (asks : Book)
    (hs : SortedKeys asks) (hpos : 0 < (matchBuyScan price qty asks).1) :
    ∀ x ∈ (matchBuyScan price qty asks).2, price < x.1 := by
  induction asks generalizing qty with
  | nil => simp [matchBuyScan]
  | cons hd tl ih =>
    obtain ⟨ap, aq⟩ := hd
    rw [SortedKeys, List.pairwise_cons] at hs
    have hm2 := min_le_right qty aq
    have hm3 := min_choice qty aq
    simp only [matchBuyScan] at hpos ⊢
    split_ifs at hpos ⊢ with h1 h2 h3
    · exact absurd (show (0 : Int) < qty from hpos) (by omega)
    · intro x hx
      have hx' : x ∈ (ap, aq) :: tl := hx
      rcases List.mem_cons.mp hx' with hx'' | hx''
      · subst hx''; exact h2
      · exact lt_trans h2 (hs.1 x hx'')
    · exact ih _ hs.2 hpos
    · have h0 : qty - min qty aq ≤ 0 := by omega
      rw [matchBuyScan_nonpos price _ tl h0] at hpos
      exact absurd (show qty - min qty aq > 0 from hpos) (by omega)

theorem matchBuyScan_posLevels (price : Int) (qty : Int) (asks : Book)
    (h : PosLevels asks) : PosLevels (matchBuyScan price qty asks).2 := by
  induction asks generalizing qty with
  | nil => simp [matchBuyScan, PosLevels]
  | cons hd tl ih =>
    obtain ⟨ap, aq⟩ := hd
    have htl : PosLevels tl := fun x hx => h x (List.mem_cons_of_mem _ hx)
    have hm2 := min_le_right qty aq
    simp only [matchBuyScan]
    split_ifs with h1 h2 h3
    · exact h
    · exact h
    · exact ih _ htl
    · intro x hx
      rcases List.mem_cons.mp hx with hx | hx
      · subst hx; simp only; omega
      · exact ih _ htl x hx

theorem matchBuyScan_sum (price : Int) (qty : Int) (asks : Book) :
    (matchBuyScan price qty asks).1 + sumQty asks =
      qty + sumQty (matchBuyScan price qty asks).2 := by
  induction asks generalizing qty with
  | nil => simp [matchBuyScan]
  | cons hd tl ih =>
    obtain ⟨ap, aq⟩ := hd
    simp only [matchBuyScan]
    split_ifs with h1 h2 h3
    · rfl
    · rfl
    · have := ih (qty - min qty aq)
      have hm2 := min_le_right qty aq
      simp only [sumQty, List.map_cons, List.sum_cons] at this ⊢
      omega
    · have := ih (qty - min qty aq)
      simp only [sumQty, List.map_cons, List.sum_cons] at this ⊢
      omega

/-! ### Lemmas about the bid scan of `match_sell` (mirror images) -/

theorem matchSellScan_nonpos (price : Int) (qty : Int) (bids : Book)
    (h : qty ≤ 0) : matchSellScan price qty bids = (qty, bids) := by
  cases bids with
  | nil => rfl
  | cons hd tl =>
    obtain ⟨bp, bq⟩ := hd
    simp [matchSellScan, h]

theorem matchSellScan_keys_sublist (price : Int) (qty : Int) (bids : Book) :
    ((matchSellScan price qty bids).2.map Prod.fst).Sublist (bids.map Prod.fst) := by
  induction bids generalizing qty with
  | nil => simp [matchSellScan]
  | cons hd tl ih =>
    obtain ⟨bp, bq⟩ := hd
    simp only [matchSellScan]
    split_ifs with h1 h2 h3
    · exact List.Sublist.refl _
    · exact List.Sublist.refl _
    · exact List.Sublist.cons bp (ih _)
    · exact List.Sublist.cons₂ bp (ih _)

theorem matchSellScan_fst_nonneg (price : Int) (qty : Int) (bids : Book)
    (h : 0 ≤ qty) : 0 ≤ (matchSellScan price qty bids).1 := by
  induction bids generalizing qty with
  | nil => simpa [matchSellScan] using h
  | cons hd tl ih =>
    obtain ⟨bp, bq⟩ := hd
    have hm1 := min_le_left qty bq
    have hm2 := min_le_right qty bq
    simp only [matchSellScan]
    split_ifs with h1 h2 h3
    · exact h
    · exact h
    · exact ih _ (by omega)
    · exact ih _ (by omega)

theorem matchSellScan_pos_lt (price : Int) (qty : Int) (bids : Book)
    (hs : SortedKeysDesc bids) (hpos : 0 < (matchSellScan price qty bids).1) :
    ∀ x ∈ (matchSellScan price qty bids).2, x.1 < price := by
  induction bids generalizing qty with
  | nil => simp [matchSellScan]
  | cons hd tl ih =>
    obtain ⟨bp, bq⟩ := hd
    rw [SortedKeysDesc, List.pairwise_cons] at hs
    have hm2 := min_le_right qty bq
    have hm3 := min_choice qty bq
    simp only [matchSellScan] at hpos ⊢
    split_ifs at hpos ⊢ with h1 h2 h3
    · exact absurd (show (0 : Int) < qty from hpos) (by omega)
    · intro x hx
      have hx' : x ∈ (bp, bq) :: tl := hx
      rcases List.mem_cons.mp hx' with hx'' | hx''
      · subst hx''; exact h2
      · exact lt_trans (hs.1 x hx'') h2
    · exact ih _ hs.2 hpos
    · have h0 : qty - min qty bq ≤ 0 := by omega
      rw [matchSellScan_nonpos price _ tl h0] at hpos
      exact absurd (show qty - min qty bq > 0 from hpos) (by omega)

theorem matchSellScan_posLevels (price : Int) (qty : Int) (bids : Book)
    (h : PosLevels bids) : PosLevels (matchSellScan price qty bids).2 := by
  induction bids generalizing qty with
  | nil => simp [matchSellScan, PosLevels]
  | cons hd tl ih =>
    obtain ⟨bp, bq⟩ := hd
    have htl : PosLevels tl := fun x hx => h x (List.mem_cons_of_mem _ hx)
    have hm2 := min_le_right qty bq
    simp only [matchSellScan]
    split_ifs with h1 h2 h3
    · exact h
    · exact h
    · exact ih _ htl
    · intro x hx
      rcases List.mem_cons.mp hx with hx | hx
      · subst hx; simp only; omega
      · exact ih _ htl x hx

theorem matchSellScan_sum (price : Int) (qty : Int) (bids : Book) :
    (matchSellScan price qty bids).1 + sumQty bids =
      qty + sumQty (matchSellScan price qty bids).2 := by
  induction bids generalizing qty with
  | nil => simp [matchSellScan]
  | cons hd tl ih =>
    obtain ⟨bp, bq⟩ := hd
    simp only [matchSellScan]
    split_ifs with h1 h2 h3
    · rfl
    · rfl
    · have := ih (qty - min qty bq)
      have hm2 := min_le_right qty bq
      simp only [sumQty, List.map_cons, List.sum_cons] at this ⊢
      omega
    · have := ih (qty - min qty bq)
      simp only [sumQty, List.map_cons, List.sum_cons] at this ⊢
      omega

/-! ### Lemmas about `add_to_book`'s level insertion -/

theorem mem_addLevel {price qty : Int} {l : Book} {x : Int × Int}
    (hx : x ∈ addLevel price qty l) : x.1 = price ∨ x ∈ l := by
  induction l with
  | nil =>
    simp only [addLevel, List.mem_singleton] at hx
    subst hx; left; rfl
  | cons hd tl ih =>
    obtain ⟨p, q⟩ := hd
    simp only [addLevel] at hx
    split_ifs at hx with h1 h2
    · rcases List.mem_cons.mp hx with hx' | hx'
      · subst hx'; left; rfl
      · right; exact hx'
    · rcases List.mem_cons.mp hx with hx' | hx'
      · subst hx'; left; exact h2.symm
      · right; exact List.mem_cons_of_mem _ hx'
    · rcases List.mem_cons.mp hx with hx' | hx'
      · subst hx'; right; exact List.mem_cons_self _ _
      · rcases ih hx' with h | h
        · left; exact h
        · right; exact List.mem_cons_of_mem _ h

theorem addLevel_sortedKeys (price qty : Int) (l : Book) (h : SortedKeys l) :
    SortedKeys (addLevel price qty l) := by
  induction l with
  | nil =>
    simp [addLevel, SortedKeys]
  | cons hd tl ih =>
    obtain ⟨p, q⟩ := hd
    rw [SortedKeys, List.pairwise_cons] at h
    simp only [addLevel]
    split_ifs with h1 h2
    · rw [SortedKeys, List.pairwise_cons]
      constructor
      · intro y hy
        rcases List.mem_cons.mp hy with hy' | hy'
        · subst hy'; exact h1
        · exact lt_trans h1 (h.1 y hy')
      · rw [List.pairwise_cons]
        exact h
    · rw [SortedKeys, List.pairwise_cons]
      exact h
    · rw [SortedKeys, List.pairwise_cons]
      constructor
      · intro y hy
        rcases mem_addLevel hy with hy' | hy'
        · rw [hy']; omega
        · exact h.1 y hy'
      · exact ih h.2

theorem addLevel_posLevels (price qty : Int) (l : Book) (hq : 0 < qty)
    (h : PosLevels l) : PosLevels (addLevel price qty l) := by
  induction l with
  | nil =>
    intro x hx
    simp only [addLevel, List.mem_singleton] at hx
    subst hx; exact hq
  | cons hd tl ih =>
    obtain ⟨p, q⟩ := hd
    have hhd : 0 < q := h (p, q) (List.mem_cons_self _ _)
    have htl : PosLevels tl := fun x hx => h x (List.mem_cons_of_mem _ hx)
    simp only [addLevel]
    split_ifs with h1 h2
    · intro x hx
      rcases List.mem_cons.mp hx with hx' | hx'
      · subst hx'; exact hq
      · exact h x hx'
    · intro x hx
      rcases List.mem_cons.mp hx with hx' | hx'
      · subst hx'; simp only; omega
      · exact htl x hx'
    · intro x hx
      rcases List.mem_cons.mp hx with hx' | hx'
      · subst hx'; exact hhd
      · exact ih htl x hx'

theorem sumQty_addLevel (price qty : Int) (l : Book) :
    sumQty (addLevel price qty l) = qty + sumQty l := by
  induction l with
  | nil => simp [addLevel, sumQty]
  | cons hd tl ih =>
    obtain ⟨p, q⟩ := hd
    simp only [addLevel]
    split_ifs with h1 h2
    · simp only [sumQty, List.map_cons, List.sum_cons]
    · simp only [sumQty, List.map_cons, List.sum_cons]; ring
    · simp only [sumQty, List.map_cons, List.sum_cons] at ih ⊢
      omega

theorem findQty_eq_zero {price : Int} {l : Book}
    (h : ∀ x ∈ l, price ≠ x.1) : findQty price l = 0 := by
  induction l with
  | nil => rfl
  | cons hd tl ih =>
    obtain ⟨p, q⟩ := hd
    have hne : price ≠ p := h (p, q) (List.mem_cons_self _ _)
    simp only [findQty, if_neg hne]
    exact ih fun x hx => h x (List.mem_cons_of_mem _ hx)

theorem findQty_addLevel_self (price qty : Int) (l : Book) (h : SortedKeys l) :
    findQty price (addLevel price qty l) = findQty price l + qty := by
  induction l with
  | nil => simp [addLevel, findQty]
  | cons hd tl ih =>
    obtain ⟨p, q⟩ := hd
    rw [SortedKeys, List.pairwise_cons] at h
    simp only [addLevel]
    split_ifs with h1 h2
    · have hne : price ≠ p := by omega
      have hz : findQty price ((p, q) :: tl) = 0 := by
        refine findQty_eq_zero fun x hx => ?_
        rcases List.mem_cons.mp hx with hx' | hx'
        · subst hx'; exact hne
        · have := h.1 x hx'; omega
      rw [hz]
      simp [findQty, if_pos rfl]
    · subst h2
      simp [findQty]
    · have hne : price ≠ p := by omega
      simp only [findQty, if_neg hne]
      exact ih h.2

theorem findQty_addLevel_other {price' price qty : Int} (l : Book)
    (hne : price' ≠ price) :
    findQty price' (addLevel price qty l) = findQty price' l := by
  induction l with
  | nil => simp [addLevel, findQty, if_neg hne]
  | cons hd tl ih =>
    obtain ⟨p, q⟩ := hd
    simp only [addLevel]
    split_ifs with h1 h2
    · simp only [findQty, if_neg hne]
    · subst h2
      simp only [findQty, if_neg hne]
    · by_cases hpp : price' = p
      · simp only [findQty, if_pos hpp]
      · simp only [findQty, if_neg hpp]
        exact ih

/-! ### Well-formedness is preserved by `process_order` -/

theorem pairwiseKeys_of_keys_sublist {r : Int → Int → Prop} {l₁ l₂ : Book}
    (hsub : (l₁.map Prod.fst).Sublist (l₂.map Prod.fst))
    (h : List.Pairwise (fun x y : Int × Int => r x.1 y.1) l₂) :
    List.Pairwise (fun x y : Int × Int => r x.1 y.1) l₁ := by
  rw [← List.pairwise_map (f := Prod.fst)] at h ⊢
  exact List.Pairwise.sublist hsub h

theorem exists_same_key_of_keys_sublist {l₁ l₂ : Book}
    (hsub : (l₁.map Prod.fst).Sublist (l₂.map Prod.fst)) {y : Int × Int}
    (hy : y ∈ l₁) : ∃ z ∈ l₂, z.1 = y.1 := by
  have hmem : y.1 ∈ l₂.map Prod.fst := hsub.subset (List.mem_map_of_mem _ hy)
  rcases List.mem_map.mp hmem with ⟨z, hz, hzz⟩
  exact ⟨z, hz, hzz⟩

theorem sortedKeysDesc_reverse {l : Book} (h : SortedKeys l) :
    SortedKeysDesc l.reverse := by
  rw [SortedKeysDesc, List.pairwise_reverse]
  exact h

theorem sortedKeys_reverse_of_desc {l : Book} (h : SortedKeysDesc l) :
    SortedKeys l.reverse := by
  rw [SortedKeys, List.pairwise_reverse]
  exact h

theorem BookWF_match_buy (b : OrderBook) (o : Order) (h : BookWF b) :
    BookWF (b.match_buy o) := by
  obtain ⟨hsb, hsa, hpb, hpa, hu⟩ := h
  have hsub := matchBuyScan_keys_sublist o.price o.quantity b.asks
  have hsa' : SortedKeys (matchBuyScan o.price o.quantity b.asks).2 :=
    pairwiseKeys_of_keys_sublist hsub hsa
  have hpa' : PosLevels (matchBuyScan o.price o.quantity b.asks).2 :=
    matchBuyScan_posLevels o.price o.quantity b.asks hpa
  simp only [OrderBook.match_buy, OrderBook.add_to_book]
  split_ifs with hr
  · refine ⟨addLevel_sortedKeys _ _ _ hsb, hsa', addLevel_posLevels _ _ _ hr hpb,
      hpa', ?_⟩
    intro x hx y hy
    rcases mem_addLevel hx with hx' | hx'
    · rw [hx']
      exact matchBuyScan_pos_gt o.price o.quantity b.asks hsa hr y hy
    · rcases exists_same_key_of_keys_sublist hsub hy with ⟨z, hz, hzz⟩
      rw [← hzz]
      exact hu x hx' z hz
  · refine ⟨hsb, hsa', hpb, hpa', ?_⟩
    intro x hx y hy
    rcases exists_same_key_of_keys_sublist hsub hy with ⟨z, hz, hzz⟩
    rw [← hzz]
    exact hu x hx z hz

theorem BookWF_match_sell (b : OrderBook) (o : Order) (h : BookWF b) :
    BookWF (b.match_sell o) := by
  obtain ⟨hsb, hsa, hpb, hpa, hu⟩ := h
  have hsub := matchSellScan_keys_sublist o.price o.quantity b.bids.reverse
  have hdesc : SortedKeysDesc b.bids.reverse := sortedKeysDesc_reverse hsb
  have hdesc' : SortedKeysDesc (matchSellScan o.price o.quantity b.bids.reverse).2 := by
    rw [SortedKeysDesc] at hdesc ⊢
    exact pairwiseKeys_of_keys_sublist (r := fun a b => b < a) hsub hdesc
  have hsb' : SortedKeys (matchSellScan o.price o.quantity b.bids.reverse).2.reverse :=
    sortedKeys_reverse_of_desc hdesc'
  have hprev : PosLevels b.bids.reverse := by
    intro x hx
    exact hpb x (List.mem_reverse.mp hx)
  have hpb' : PosLevels (matchSellScan o.price o.quantity b.bids.reverse).2 :=
    matchSellScan_posLevels o.price o.quantity b.bids.reverse hprev
  have hpb'' : PosLevels (matchSellScan o.price o.quantity b.bids.reverse).2.reverse := by
    intro x hx
    exact hpb' x (List.mem_reverse.mp hx)
  have hkey : ∀ x ∈ (matchSellScan o.price o.quantity b.bids.reverse).2.reverse,
      ∃ z ∈ b.bids, z.1 = x.1 := by
    intro x hx
    rcases exists_same_key_of_keys_sublist hsub (List.mem_reverse.mp hx) with ⟨z, hz, hzz⟩
    exact ⟨z, List.mem_reverse.mp hz, hzz⟩
  simp only [OrderBook.match_sell, OrderBook.add_to_book]
  split_ifs with hr
  · refine ⟨hsb', addLevel_sortedKeys _ _ _ hsa, hpb'',
      addLevel_posLevels _ _ _ hr hpa, ?_⟩
    intro x hx y hy
    rcases mem_addLevel hy with hy' | hy'
    · rw [hy']
      exact matchSellScan_pos_lt o.price o.quantity b.bids.reverse hdesc hr x
        (List.mem_reverse.mp hx)
    · rcases hkey x hx with ⟨z, hz, hzz⟩
      rw [← hzz]
      exact hu z hz y hy'
  · refine ⟨hsb', hsa, hpb'', hpa, ?_⟩
    intro x hx y hy
    rcases hkey x hx with ⟨z, hz, hzz⟩
    rw [← hzz]
    exact hu z hz y hy

theorem BookWF_process_order (b : OrderBook) (o : Order) (h : BookWF b) :
    BookWF (b.process_order o) := by
  obtain ⟨side, price, qty⟩ := o
  cases side with
  | BUY => exact BookWF_match_buy b _ h
  | SELL => exact BookWF_match_sell b _ h

theorem BookWF_emptyBook : BookWF emptyBook := by
  refine ⟨List.Pairwise.nil, List.Pairwise.nil, ?_, ?_, ?_⟩ <;> simp [emptyBook, PosLevels, Uncrossed]

theorem BookWF_foldl (os : List Order) (b : OrderBook) (h : BookWF b) :
    BookWF (os.foldl OrderBook.process_order b) := by
  induction os generalizing b with
  | nil => exact h
  | cons o os ih => exact ih _ (BookWF_process_order b o h)

theorem BookWF_runBook (os : List Order) : BookWF (runBook os) :=
  BookWF_foldl os emptyBook BookWF_emptyBook

theorem uncrossed_best_prices {b : OrderBook} (h : Uncrossed b) {bp ap : Int}
    (hb : bestBidPrice b = some bp) (ha : bestAskPrice b = some ap) : bp < ap := by
  have hbm : bp ∈ b.bids.map Prod.fst :=
    List.mem_of_mem_getLast? (by rw [bestBidPrice] at hb; simp [hb])
  have ham : ap ∈ b.asks.map Prod.fst :=
    List.mem_of_mem_head? (by rw [bestAskPrice] at ha; simp [ha])
  rcases List.mem_map.mp hbm with ⟨x, hx, hxe⟩
  rcases List.mem_map.mp ham with ⟨y, hy, hye⟩
  rw [← hxe, ← hye]
  exact h x hx y hy

/-! ### The code's scans coincide with the spec's description of them -/

theorem specBuyScan_eq_matchBuyScan (price : Int) (qty : Int) (asks : Book) :
    specBuyScan price qty asks = matchBuyScan price qty asks := by
  induction asks generalizing qty with
  | nil => rfl
  | cons hd tl ih =>
    obtain ⟨ap, aq⟩ := hd
    simp only [specBuyScan, matchBuyScan]
    by_cases h1 : qty ≤ 0
    · rw [if_neg (by omega), if_pos h1]
    · by_cases h2 : price < ap
      · rw [if_neg (by omega), if_neg h1, if_pos h2]
      · rw [if_pos (by omega), if_neg h1, if_neg h2]
        split_ifs with h3
        · exact ih _
        · rw [ih _]

theorem specSellScan_eq_matchSellScan (price : Int) (qty : Int) (bids : Book) :
    specSellScan price qty bids = matchSellScan price qty bids := by
  induction bids generalizing qty with
  | nil => rfl
  | cons hd tl ih =>
    obtain ⟨bp, bq⟩ := hd
    simp only [specSellScan, matchSellScan]
    by_cases h1 : qty ≤ 0
    · rw [if_neg (by omega), if_pos h1]
    · by_cases h2 : price > bp
      · rw [if_neg (by omega), if_neg h1, if_pos h2]
      · rw [if_pos (by omega), if_neg h1, if_neg h2]
        split_ifs with h3
        · exact ih _
        · rw [ih _]

/-! ### Sorted-list extrema helpers for the statistics reporter -/

theorem sorted_headD_min {l : List Int}
    (hs : List.Sorted (fun a b : Int => a ≤ b) l) (hne : l ≠ []) :
    l.headD 0 ∈ l ∧ ∀ x ∈ l, l.headD 0 ≤ x := by
  cases l with
  | nil => exact absurd rfl hne
  | cons m t =>
    rw [List.sorted_cons] at hs
    refine ⟨by simp, ?_⟩
    intro x hx
    rcases List.mem_cons.mp hx with hx' | hx'
    · subst hx'; simp
    · simpa using hs.1 x hx'

theorem sorted_getLastD_max {l : List Int}
    (hs : List.Sorted (fun a b : Int => a ≤ b) l) (hne : l ≠ []) :
    l.getLastD 0 ∈ l ∧ ∀ x ∈ l, x ≤ l.getLastD 0 := by
  induction l with
  | nil => exact absurd rfl hne
  | cons m t ih =>
    rw [List.sorted_cons] at hs
    cases t with
    | nil =>
      refine ⟨by simp, ?_⟩
      intro x hx
      simp only [List.mem_singleton] at hx
      subst hx
      simp
    | cons m2 t2 =>
      have h2 := ih hs.2 (by simp)
      have heq : (m :: m2 :: t2).getLastD 0 = (m2 :: t2).getLastD 0 := by
        simp [List.getLastD_eq_getLast?, List.getLast?_cons_cons]
      rw [heq]
      refine ⟨List.mem_cons_of_mem _ h2.1, ?_⟩
      intro x hx
      rcases List.mem_cons.mp hx with hx' | hx'
      · subst hx'; exact hs.1 _ h2.1
      · exact h2.2 x hx'

/-! ### `process_order` equals its spec-side description -/

theorem process_buy_eq_spec (b : OrderBook) (o : Order)
    (hside : o.side = Side.BUY) : b.process_order o = specMatchBuy b o := by
  obtain ⟨side, price, qty⟩ := o
  cases hside
  simp only [OrderBook.process_order, OrderBook.match_buy, OrderBook.add_to_book,
    specMatchBuy, specBuyScan_eq_matchBuyScan, gt_iff_lt]

theorem process_sell_eq_spec (b : OrderBook) (o : Order)
    (hside : o.side = Side.SELL) : b.process_order o = specMatchSell b o := by
  obtain ⟨side, price, qty⟩ := o
  cases hside
  simp only [OrderBook.process_order, OrderBook.match_sell, OrderBook.add_to_book,
    specMatchSell, specSellScan_eq_matchSellScan, gt_iff_lt]

/-! ### Claim theorems -/

/-- C1: after a single `process_order` call on any book state the program can
reach (the book starts empty and is only ever mutated by `process_order`),
if both the bid side and the ask side are non-empty then the best (highest)
bid price is strictly less than the best (lowest) ask price — the book is
never left crossed. -/
theorem book_never_crossed (os : List Order) (o : Order) (bp ap : Int)
    (hb : bestBidPrice ((runBook os).process_order o) = some bp)
    (ha : bestAskPrice ((runBook os).process_order o) = some ap) :
    bp < ap :=
  uncrossed_best_prices
    (BookWF_process_order (runBook os) o (BookWF_runBook os)).2.2.2.2 hb ha

theorem book_never_crossed_witness :
    bestBidPrice ((runBook [Order.mk Side.SELL 105 5]).process_order
        (Order.mk Side.BUY 100 3)) = some 100 ∧
    bestAskPrice ((runBook [Order.mk Side.SELL 105 5]).process_order
        (Order.mk Side.BUY 100 3)) = some 105 ∧
    (100 : Int) < 105 :=
  ⟨by decide, by decide,
    book_never_crossed [Order.mk Side.SELL 105 5] (Order.mk Side.BUY 100 3)
      100 105 (by decide) (by decide)⟩

/-- C2: for every BUY order with positive quantity, `process_order` behaves
exactly as the spec's `match_buy` description (`specMatchBuy`, transcribed
from the spec's words: scan asks lowest-first while quantity remains and the
ask price ≤ the order price, subtract `min`, remove exactly-emptied levels,
stop at the first too-expensive level, rest the remainder on the bid side);
and on an empty book, SELL 5@101, SELL 5@102, then BUY 12@102 leaves asks
empty and bids = {102: 2}. -/
theorem match_buy_follows_spec :
    (∀ (b : OrderBook) (o : Order), o.side = Side.BUY → 0 < o.quantity →
      b.process_order o = specMatchBuy b o) ∧
    runBook [Order.mk Side.SELL 101 5, Order.mk Side.SELL 102 5,
      Order.mk Side.BUY 102 12] = OrderBook.mk [(102, 2)] [] :=
  ⟨fun b o hside _ => process_buy_eq_spec b o hside, by decide⟩

theorem match_buy_follows_spec_witness :
    OrderBook.process_order (OrderBook.mk [] [(100, 4)]) (Order.mk Side.BUY 101 6) =
      specMatchBuy (OrderBook.mk [] [(100, 4)]) (Order.mk Side.BUY 101 6) :=
  match_buy_follows_spec.1 (OrderBook.mk [] [(100, 4)]) (Order.mk Side.BUY 101 6)
    rfl (by decide)

/-- C3: for every SELL order with positive quantity, `process_order` behaves
exactly as the spec's symmetric `match_sell` description (`specMatchSell`:
scan bids highest-first, stop when the bid price drops below the order
price, rest the remainder on the ask side); and from bids = {100: 10} with
empty asks, SELL 4@99 yields bids = {100: 6} and empty asks. -/
theorem match_sell_follows_spec :
    (∀ (b : OrderBook) (o : Order), o.side = Side.SELL → 0 < o.quantity →
      b.process_order o = specMatchSell b o) ∧
    OrderBook.process_order (OrderBook.mk [(100, 10)] []) (Order.mk Side.SELL 99 4) =
      OrderBook.mk [(100, 6)] [] :=
  ⟨fun b o hside _ => process_sell_eq_spec b o hside, by decide⟩

theorem match_sell_follows_spec_witness :
    OrderBook.process_order (OrderBook.mk [(100, 4)] []) (Order.mk Side.SELL 99 6) =
      specMatchSell (OrderBook.mk [(100, 4)] []) (Order.mk Side.SELL 99 6) :=
  match_sell_follows_spec.1 (OrderBook.mk [(100, 4)] []) (Order.mk Side.SELL 99 6)
    rfl (by decide)

theorem OrderBook_mk_bids (x y : Book) : (OrderBook.mk x y).bids = x := rfl

theorem OrderBook_mk_asks (x y : Book) : (OrderBook.mk x y).asks = y := rfl

theorem Order_mk_quantity (s : Side) (p q : Int) :
    (Order.mk s p q).quantity = q := rfl

/-- C4: for every order with positive quantity and every book state, the
total quantity subtracted from the opposing side's levels plus the quantity
added to the order's own side equals the order's original quantity. -/
theorem quantity_conservation (b : OrderBook) (o : Order)
    (h : 0 < o.quantity) : matchedQty b o + restedQty b o = o.quantity := by
  obtain ⟨side, price, qty⟩ := o
  have h' : 0 < qty := h
  cases side with
  | BUY =>
    have hsum := matchBuyScan_sum price qty b.asks
    have hnn := matchBuyScan_fst_nonneg price qty b.asks (by omega)
    simp only [matchedQty, restedQty, OrderBook.process_order, OrderBook.match_buy,
      OrderBook.add_to_book, gt_iff_lt, OrderBook_mk_bids, OrderBook_mk_asks,
      Order_mk_quantity]
    split_ifs with hr
    · simp only [sumQty_addLevel]
      omega
    · simp only [OrderBook_mk_bids, OrderBook_mk_asks, Order_mk_quantity]
      omega
  | SELL =>
    have hsum := matchSellScan_sum price qty b.bids.reverse
    have hnn := matchSellScan_fst_nonneg price qty b.bids.reverse (by omega)
    have hrev : sumQty (matchSellScan price qty b.bids.reverse).2.reverse =
        sumQty (matchSellScan price qty b.bids.reverse).2 := by
      simp [sumQty, List.map_reverse, List.sum_reverse]
    have hrev2 : sumQty b.bids.reverse = sumQty b.bids := by
      simp [sumQty, List.map_reverse, List.sum_reverse]
    rw [hrev2] at hsum
    simp only [matchedQty, restedQty, OrderBook.process_order, OrderBook.match_sell,
      OrderBook.add_to_book, gt_iff_lt, OrderBook_mk_bids, OrderBook_mk_asks,
      Order_mk_quantity]
    split_ifs with hr
    · simp only [sumQty_addLevel, hrev]
      omega
    · simp only [hrev]
      omega

theorem quantity_conservation_witness :
    (0 : Int) < 7 ∧
    matchedQty (OrderBook.mk [] [(100, 4)]) (Order.mk Side.BUY 101 7) +
      restedQty (OrderBook.mk [] [(100, 4)]) (Order.mk Side.BUY 101 7) = 7 :=
  ⟨by decide,
    quantity_conservation (OrderBook.mk [] [(100, 4)]) (Order.mk Side.BUY 101 7)
      (by decide)⟩

/-- C5: every book state reachable by processing orders with positive
quantity from the empty book has strictly positive quantity at every price
level on both sides (an exactly-emptied level is removed by the scan, never
retained at zero or negative quantity). -/
theorem reachable_levels_positive (os : List Order)
    (h : ∀ o ∈ os, 0 < o.quantity) :
    PosLevels (runBook os).bids ∧ PosLevels (runBook os).asks :=
  ⟨(BookWF_runBook os).2.2.1, (BookWF_runBook os).2.2.2.1⟩

theorem reachable_levels_positive_witness :
    (∀ o ∈ [Order.mk Side.BUY 100 5, Order.mk Side.SELL 100 2], 0 < o.quantity) ∧
    (PosLevels (runBook [Order.mk Side.BUY 100 5, Order.mk Side.SELL 100 2]).bids ∧
      PosLevels (runBook [Order.mk Side.BUY 100 5, Order.mk Side.SELL 100 2]).asks) :=
  ⟨by decide,
    reachable_levels_positive [Order.mk Side.BUY 100 5, Order.mk Side.SELL 100 2]
      (by decide)⟩

/-- C6: for every non-empty sample sequence the reporter sorts ascending and
returns count = number of samples, min = first element of the sorted
sequence (the true minimum: a sample that is ≤ every sample), max = last
element (the true maximum), nearest-rank percentiles taken from the sorted
samples (p50 shown here to be one of the samples), and mean = sum / count;
on [10, 20, 30, 40] this gives count = 4, mean = 25, min = 10, max = 40 and
p50 = sorted[2] = 30. -/
theorem latency_stats_correct :
    (∀ l : List Int, l ≠ [] →
      ∃ s, latency_stats l = some s ∧ s.count = l.length ∧
        s.minNs ∈ l ∧ (∀ x ∈ l, s.minNs ≤ x) ∧
        s.maxNs ∈ l ∧ (∀ x ∈ l, x ≤ s.maxNs) ∧
        s.p50 ∈ l ∧ mean_ns l * (l.length : ℚ) = (l.sum : ℚ)) ∧
    (latency_stats [10, 20, 30, 40] = some (LatencyStats.mk 4 10 40 30 40 40) ∧
      mean_ns [10, 20, 30, 40] = 25) := by
  constructor
  · intro l hl
    have hne : ¬ (l.isEmpty = true) := by
      rw [List.isEmpty_iff]
      exact hl
    have hperm := List.perm_insertionSort (fun a b : Int => a ≤ b) l
    have hsorted := List.sorted_insertionSort (fun a b : Int => a ≤ b) l
    have hlen : (List.insertionSort (fun a b : Int => a ≤ b) l).length = l.length :=
      hperm.length_eq
    have hsne : List.insertionSort (fun a b : Int => a ≤ b) l ≠ [] := by
      intro h0
      apply hl
      rw [← List.length_eq_zero, ← hlen, h0]
      rfl
    have hmin := sorted_headD_min hsorted hsne
    have hmax := sorted_getLastD_max hsorted hsne
    have hp50lt : pctIdx (List.insertionSort (fun a b : Int => a ≤ b) l).length 50 100 <
        (List.insertionSort (fun a b : Int => a ≤ b) l).length := by
      have hpos : 0 < (List.insertionSort (fun a b : Int => a ≤ b) l).length :=
        List.length_pos.mpr hsne
      rw [pctIdx]
      omega
    refine ⟨LatencyStats.mk (List.insertionSort (fun a b : Int => a ≤ b) l).length
        ((List.insertionSort (fun a b : Int => a ≤ b) l).headD 0)
        ((List.insertionSort (fun a b : Int => a ≤ b) l).getLastD 0)
        ((List.insertionSort (fun a b : Int => a ≤ b) l).getD
          (pctIdx (List.insertionSort (fun a b : Int => a ≤ b) l).length 50 100) 0)
        ((List.insertionSort (fun a b : Int => a ≤ b) l).getD
          (pctIdx (List.insertionSort (fun a b : Int => a ≤ b) l).length 90 100) 0)
        ((List.insertionSort (fun a b : Int => a ≤ b) l).getD
          (pctIdx (List.insertionSort (fun a b : Int => a ≤ b) l).length 99 100) 0),
      ?_, ?_, ?_, ?_, ?_, ?_, ?_, ?_⟩
    · rw [latency_stats, if_neg hne]
    · exact hlen
    · exact hperm.mem_iff.mp hmin.1
    · intro x hx
      exact hmin.2 x (hperm.mem_iff.mpr hx)
    · exact hperm.mem_iff.mp hmax.1
    · intro x hx
      exact hmax.2 x (hperm.mem_iff.mpr hx)
    · rw [List.getD_eq_getElem _ _ hp50lt]
      exact hperm.mem_iff.mp (List.getElem_mem hp50lt)
    · rw [mean_ns, div_mul_cancel₀]
      simpa [List.length_eq_zero] using hl
  · constructor
    · decide
    · rw [mean_ns]
      norm_num

theorem latency_stats_correct_witness :
    ∃ s, latency_stats [3, 1] = some s ∧ s.count = [3, 1].length ∧
      s.minNs ∈ [3, 1] ∧ (∀ x ∈ [3, 1], s.minNs ≤ x) ∧
      s.maxNs ∈ [3, 1] ∧ (∀ x ∈ [3, 1], x ≤ s.maxNs) ∧
      s.p50 ∈ [3, 1] ∧ mean_ns [3, 1] * (([3, 1] : List Int).length : ℚ) =
        (([3, 1] : List Int).sum : ℚ) :=
  latency_stats_correct.1 [3, 1] (by decide)

/-- C7: for every non-empty sample count, each nearest-rank percentile index
`count * p` truncated, for p ∈ {0.50, 0.90, 0.99}, is within the valid index
range [0, count - 1], so `print_latency_stats` never indexes the sorted
sample vector out of range. -/
theorem percentile_index_in_range (count : Nat) (h : 0 < count) :
    pctIdx count 50 100 < count ∧ pctIdx count 90 100 < count ∧
      pctIdx count 99 100 < count := by
  refine ⟨?_, ?_, ?_⟩ <;> (rw [pctIdx]; omega)

theorem percentile_index_in_range_witness :
    0 < 4 ∧ (pctIdx 4 50 100 < 4 ∧ pctIdx 4 90 100 < 4 ∧ pctIdx 4 99 100 < 4) :=
  ⟨by decide, percentile_index_in_range 4 (by decide)⟩

/-- C8: on either side of the book, adding quantity 5 and then quantity 3 at
the same price to an initially empty side leaves exactly one level at that
price with aggregate quantity 8; and in general `add_to_book`'s insertion
aggregate-adds into the side's level map, creating the level if absent
(existing level: quantity is summed; other levels: untouched). -/
theorem add_to_book_aggregates :
    (∀ (side : Side) (p : Int),
      sideLevels ((emptyBook.add_to_book p 5 side).add_to_book p 3 side) side =
        [(p, 8)]) ∧
    (∀ (p q : Int) (l : Book), SortedKeys l →
      findQty p (addLevel p q l) = findQty p l + q) ∧
    (∀ (p p' q : Int) (l : Book), p' ≠ p →
      findQty p' (addLevel p q l) = findQty p' l) := by
  refine ⟨?_, ?_, ?_⟩
  · intro side p
    cases side <;>
      simp [sideLevels, OrderBook.add_to_book, emptyBook, addLevel]
  · intro p q l hs
    exact findQty_addLevel_self p q l hs
  · intro p p' q l hne
    exact findQty_addLevel_other l hne

theorem add_to_book_aggregates_witness :
    sideLevels ((emptyBook.add_to_book 7 5 Side.BUY).add_to_book 7 3 Side.BUY)
      Side.BUY = [(7, 8)] ∧
    findQty 7 (addLevel 7 2 []) = findQty 7 [] + 2 ∧
    findQty 6 (addLevel 7 2 []) = findQty 6 [] :=
  ⟨add_to_book_aggregates.1 Side.BUY 7,
    add_to_book_aggregates.2.1 7 2 [] List.Pairwise.nil,
    add_to_book_aggregates.2.2 7 6 2 [] (by decide)⟩

/-- C9: with no recorded samples the reporter reports "no samples" (modelled
as `none`) and computes no statistics; with a non-empty sample sequence it
does produce statistics (`some`). -/
theorem empty_samples_no_stats :
    latency_stats [] = none ∧
      ∀ l : List Int, l ≠ [] → (latency_stats l).isSome = true := by
  constructor
  · rfl
  · intro l hl
    rw [latency_stats, if_neg (by rw [List.isEmpty_iff]; exact hl)]
    rfl

theorem empty_samples_no_stats_witness :
    latency_stats [] = none ∧ (latency_stats [5]).isSome = true :=
  ⟨empty_samples_no_stats.1, empty_samples_no_stats.2 [5] (by decide)⟩

/-- C10: an order whose quantity is zero or negative leaves the book
completely unchanged: the scan loop never runs (its guard `quantity > 0`
fails immediately) and the remainder test `quantity > 0` also fails, so
nothing is matched and nothing is rested. -/
theorem nonpositive_order_is_noop (b : OrderBook) (o : Order)
    (h : o.quantity ≤ 0) : b.process_order o = b := by
  obtain ⟨side, price, qty⟩ := o
  have h' : qty ≤ 0 := h
  cases side with
  | BUY =>
    simp only [OrderBook.process_order, OrderBook.match_buy,
      matchBuyScan_nonpos price qty b.asks h', gt_iff_lt]
    rw [if_neg (by omega)]
  | SELL =>
    simp only [OrderBook.process_order, OrderBook.match_sell,
      matchSellScan_nonpos price qty b.bids.reverse h', gt_iff_lt]
    rw [if_neg (by omega)]
    simp [List.reverse_reverse]

theorem nonpositive_order_is_noop_witness :
    OrderBook.process_order (OrderBook.mk [(99, 1)] [(105, 2)])
      (Order.mk Side.BUY 100 0) = OrderBook.mk [(99, 1)] [(105, 2)] :=
  nonpositive_order_is_noop (OrderBook.mk [(99, 1)] [(105, 2)])
    (Order.mk Side.BUY 100 0) (by decide)
